import Mathlib

/-!
Verification of the amber-home energy data collection system.

The repository's Python collector service (`services/datacollector-service/app/`,
`data_collector.py`) is not present under `src/`; only its schema, READMEs and the
Next.js dashboard are. Components of the collector (RangeChunker, Watermark Store,
Collection Orchestrator, RateLimiter, upsert operations) are therefore modelled
from the spec, as noted on each definition. The SQL schemas
(`src/backend/datacollector-service/schema.sql`) and the dashboard API route
handlers (`src/frontend/src/app/api/...`) are embedded from the source directly.

Timestamps are modelled as natural numbers (minutes since an epoch).
-/

namespace AmberHome

/-- Modelled from the spec: the RangeChunker of the collector service (spec §4.1) is
not under `src/`. Splits `[cur, e]` into contiguous sub-ranges of length ≤ `span`,
oldest first. `fuel` bounds the recursion; `e - cur` steps always suffice when
`0 < span`, so for positive spans this equals the unbounded loop. -/
def chunkFromAux (span e : Nat) : Nat → Nat → List (Nat × Nat)
  | 0, cur => [(cur, e)]
  | fuel + 1, cur =>
    if cur + span < e then (cur, cur + span) :: chunkFromAux span e fuel (cur + span)
    else [(cur, e)]

/-- Modelled from the spec: RangeChunker (spec §4.1). `start > stop` yields an empty
sequence; otherwise splits `[start, stop]` into chunks of length ≤ `span`. -/
def rangeChunker (start stop span : Nat) : List (Nat × Nat) :=
  if stop < start then [] else chunkFromAux span stop (stop - start) start

/-- Data categories tracked independently per site (spec glossary). -/
inductive Category
  | price
  | usage
  | forecast
deriving DecidableEq, Repr

/-- A (site, category) pair, the granularity of watermarks and failure containment. -/
abbrev PairKey := String × Category

/-- Error taxonomy of the upstream client (spec §7). -/
inductive ErrKind
  | rateLimited
  | transient
  | permanent
deriving DecidableEq, Repr

/-- Outcome of processing the chunk sequence of one (site, category) pair:
records emitted to the persistence gateway, final watermark, first error if any,
and the chunks actually fetched from upstream, in order. -/
structure ChunkOutcome where
  written : List String
  wm : Nat
  err : Option ErrKind
  fetched : List (Nat × Nat)
deriving DecidableEq, Repr

/-- Modelled from the spec: the Collection Orchestrator's per-pair chunk loop
(spec §4.4 step 4) is not under `src/`. Chunks are processed strictly in order;
on success the records are written and the watermark advances to the chunk's end;
on the first failure processing stops for this pair, the watermark is left where
it was, and the error is recorded. -/
def processChunks (f : Nat × Nat → Except ErrKind (List String)) :
    Nat → List (Nat × Nat) → ChunkOutcome
  | wm0, [] => ⟨[], wm0, none, []⟩
  | wm0, c :: rest =>
    match f c with
    | .error e => ⟨[], wm0, some e, [c]⟩
    | .ok recs =>
      let o := processChunks f c.2 rest
      ⟨recs ++ o.written, o.wm, o.err, c :: o.fetched⟩

/-- Modelled from the spec: one (site, category) pair within a cycle (spec §4.4
steps 1-4). The target range is `[wm, now]`; if the watermark already equals `now`
within the tolerance `tol`, the pair is a no-op (zero fetches, zero writes). -/
def processPair (f : PairKey → Nat × Nat → Except ErrKind (List String))
    (ms tol now : Nat) (k : PairKey) (wm : Nat) : ChunkOutcome :=
  if now ≤ wm + tol then ⟨[], wm, none, []⟩
  else processChunks (f k) wm (rangeChunker wm now ms)

/-- Per-cycle aggregate result: final watermarks, all records written, and the
set of (site, category) pairs that failed with their error kind (spec §3,
CollectionCycleResult). -/
structure CycleResult where
  wm : PairKey → Nat
  written : List String
  failures : List (PairKey × ErrKind)

/-- Modelled from the spec: one collection cycle over a list of (site, category)
pairs (spec §4.4). Each pair is processed independently; a failing pair is
recorded in the cycle result and never aborts the remaining pairs. -/
def runCycle (f : PairKey → Nat × Nat → Except ErrKind (List String))
    (ms tol now : Nat) : (PairKey → Nat) → List PairKey → CycleResult
  | wm0, [] => ⟨wm0, [], []⟩
  | wm0, k :: rest =>
    let o := processPair f ms tol now k (wm0 k)
    let r := runCycle f ms tol now (fun q => if q = k then o.wm else wm0 q) rest
    ⟨r.wm, o.written ++ r.written, ((o.err).map (fun e => (k, e))).toList ++ r.failures⟩

/-- Error raised on an attempted watermark regression (spec §4.3). -/
inductive WmError
  | regressionError
deriving DecidableEq, Repr

/-- Modelled from the spec: the Watermark Store's `advance` (spec §4.3) is not
under `src/`. `none` means uninitialized. Advancing to a timestamp earlier than
the stored value fails with a regression error and changes nothing. -/
def advance (st : PairKey → Option Nat) (k : PairKey) (ts : Nat) :
    Except WmError (PairKey → Option Nat) :=
  match st k with
  | some w =>
    if ts < w then .error .regressionError
    else .ok (fun q => if q = k then some ts else st q)
  | none => .ok (fun q => if q = k then some ts else st q)

/-- One `advance` call as a total state transition: on a regression error the
store is left unchanged. -/
def applyAdvance (st : PairKey → Option Nat) (c : PairKey × Nat) : PairKey → Option Nat :=
  match advance st c.1 c.2 with
  | .ok st2 => st2
  | .error _ => st

/-- A whole sequence of `advance` calls applied in order. -/
def applyAll (calls : List (PairKey × Nat)) (st : PairKey → Option Nat) :
    PairKey → Option Nat :=
  calls.foldl applyAdvance st

/-- The minimum of a list of call timestamps (the oldest call), if any. -/
def oldestCall : List Nat → Option Nat
  | [] => none
  | t :: ts =>
    match oldestCall ts with
    | none => some t
    | some m => some (if t ≤ m then t else m)

/-- The calls still inside the sliding window at time `now`: a call at `t`
expires at `t + window`. -/
def recentCalls (window now : Nat) (calls : List Nat) : List Nat :=
  calls.filter (fun t => decide (now < t + window))

/-- Modelled from the spec: the RateLimiter's `acquire` (spec §4.2) is not under
`src/`. Returns the grant time and the updated call list. If fewer calls than
the threshold sit in the window the grant is immediate at `now`; otherwise the
caller is suspended exactly until the oldest call in the window expires, at
`oldest + window`, and granted then. A call is never dropped or rejected. -/
def acquire (threshold window now : Nat) (calls : List Nat) : Nat × List Nat :=
  let recent := recentCalls window now calls
  if recent.length < threshold then (now, now :: recent)
  else
    match oldestCall recent with
    | none => (now, now :: recent)
    | some old => (old + window, (old + window) :: recent)

/-- A row of the `price_data` table
(`src/backend/datacollector-service/schema.sql` lines 11-28). -/
structure PriceRecord where
  site_id : String
  nem_time : Nat
  channel_type : String
  per_kwh : Int
  spot_per_kwh : Int
  renewables : Option Int
  spike_status : Option String
  descriptor : Option String
  estimate : Bool
deriving DecidableEq, Repr

/-- The natural key of `price_data`: UNIQUE(site_id, nem_time, channel_type)
(schema.sql line 27). -/
def priceKey (r : PriceRecord) : String × Nat × String :=
  (r.site_id, r.nem_time, r.channel_type)

/-- The uniqueness invariant the UNIQUE constraint enforces on `price_data`. -/
def uniquePriceKeys (tbl : List PriceRecord) : Prop :=
  tbl.Pairwise (fun a b => priceKey a ≠ priceKey b)

/-- Modelled from the spec: the collector's ON CONFLICT upsert (README
"Duplicate handling with ON CONFLICT updates"; `database.py` is not under
`src/`). On a key match the stored row is replaced in place with the new
values; otherwise the row is appended. -/
def upsertPrice (tbl : List PriceRecord) (r : PriceRecord) : List PriceRecord :=
  match tbl with
  | [] => [r]
  | x :: rest => if priceKey x = priceKey r then r :: rest else x :: upsertPrice rest r

/-- Number of rows of `tbl` carrying the key `k`. -/
def priceKeyCount (tbl : List PriceRecord) (k : String × Nat × String) : Nat :=
  tbl.countP (fun x => decide (priceKey x = k))

/-- A row of the `price_forecasts` table
(`src/backend/datacollector-service/schema.sql` lines 31-56). -/
structure ForecastRecord where
  site_id : String
  nem_time : Nat
  channel_type : String
  per_kwh : Int
  spot_per_kwh : Int
  forecast_type : String
  forecast_generated_at : Nat
deriving DecidableEq, Repr

/-- The natural key of `price_forecasts`:
UNIQUE(site_id, nem_time, channel_type, forecast_generated_at)
(schema.sql line 55). -/
def forecastKey (r : ForecastRecord) : String × Nat × String × Nat :=
  (r.site_id, r.nem_time, r.channel_type, r.forecast_generated_at)

/-- The uniqueness invariant the UNIQUE constraint enforces on `price_forecasts`. -/
def uniqueForecastKeys (tbl : List ForecastRecord) : Prop :=
  tbl.Pairwise (fun a b => forecastKey a ≠ forecastKey b)

/-- Modelled from the spec: the collector's forecast upsert, keyed by the
four-column natural key of `price_forecasts` (`database.py` is not under
`src/`). -/
def upsertForecast (tbl : List ForecastRecord) (r : ForecastRecord) : List ForecastRecord :=
  match tbl with
  | [] => [r]
  | x :: rest =>
    if forecastKey x = forecastKey r then r :: rest else x :: upsertForecast rest r

/-- A row of the `usage_data` table
(`src/backend/datacollector-service/schema.sql` lines 58-74). -/
structure UsageRecord where
  site_id : String
  nem_time : Nat
  channel_id : String
  channel_type : String
  kwh : Int
  cost : Int
  quality : Option String
deriving DecidableEq, Repr

/-- The persisted tables the dashboard reads. -/
structure Database where
  price_data : List PriceRecord
  price_forecasts : List ForecastRecord
  usage_data : List UsageRecord
deriving DecidableEq, Repr

/-- INTERVAL 2 hours, in minutes (combined-price-data route.ts line 53). -/
def twoHours : Nat := 120

/-- INTERVAL 10 hours, in minutes (combined-price-data route.ts line 49). -/
def tenHours : Nat := 600

/-- The maximum of a list of timestamps, if any (SQL MAX aggregate). -/
def maxNat : List Nat → Option Nat
  | [] => none
  | t :: ts =>
    match maxNat ts with
    | none => some t
    | some m => some (if t ≤ m then m else t)

/-- The subquery `SELECT MAX(forecast_generated_at) FROM price_forecasts WHERE
forecast_generated_at >= NOW() - INTERVAL '2 hours'`
(`src/frontend/src/app/api/combined-price-data/route.ts` lines 50-54).
`g >= now - 2h` is written `now <= g + 2h` to avoid truncated subtraction. -/
def latestRecentGeneration (now : Nat) (tbl : List ForecastRecord) : Option Nat :=
  maxNat ((tbl.filter (fun x => decide (now ≤ x.forecast_generated_at + twoHours))).map
    (fun x => x.forecast_generated_at))

/-- The forecast query of the combined-price-data GET handler
(`src/frontend/src/app/api/combined-price-data/route.ts` lines 30-56): rows with
`now < nem_time <= now + 10h` whose `forecast_generated_at` equals the most
recent generation produced within the last two hours; empty when that subquery
is NULL. The SQL ORDER BY nem_time only fixes presentation order and is not
modelled; the same rows are returned. -/
def forecastQuery (now : Nat) (tbl : List ForecastRecord) : List ForecastRecord :=
  match latestRecentGeneration now tbl with
  | none => []
  | some g =>
    tbl.filter (fun x =>
      decide (now < x.nem_time) && decide (x.nem_time ≤ now + tenHours) &&
        decide (x.forecast_generated_at = g))

/-- The historical query of the combined-price-data GET handler (route.ts lines
12-27): today's price rows up to `now`. `dayStart` stands for
`(CURRENT_DATE AT TIME ZONE ...)::date`. -/
def priceHistoryQuery (dayStart now : Nat) (tbl : List PriceRecord) : List PriceRecord :=
  tbl.filter (fun x => decide (dayStart ≤ x.nem_time) && decide (x.nem_time ≤ now))

/-- The query of the usage-data GET handler
(`src/frontend/src/app/api/usage-data/route.ts` lines 11-25): today's usage rows
up to `now`. -/
def usageQuery (dayStart now : Nat) (tbl : List UsageRecord) : List UsageRecord :=
  tbl.filter (fun x => decide (dayStart ≤ x.nem_time) && decide (x.nem_time ≤ now))

/-- The usage-data GET handler (`src/frontend/src/app/api/usage-data/route.ts`
lines 9-33): runs its single SELECT and returns the rows; the database state is
passed through untouched, as the handler issues no INSERT, UPDATE or DELETE. -/
def usageDataGET (dayStart now : Nat) (db : Database) : Database × List UsageRecord :=
  (db, usageQuery dayStart now db.usage_data)

/-- The combined-price-data GET handler
(`src/frontend/src/app/api/combined-price-data/route.ts` lines 9-75): runs its
two SELECT queries and returns both row sets; the database state is passed
through untouched, as the handler issues no INSERT, UPDATE or DELETE. -/
def combinedPriceDataGET (dayStart now : Nat) (db : Database) :
    Database × (List PriceRecord × List ForecastRecord) :=
  (db, (priceHistoryQuery dayStart now db.price_data, forecastQuery now db.price_forecasts))

/-- A row of the daily-aggregate query of the cost-statistics GET handler
(`src/frontend/src/app/page.tsx` lines 100-114). -/
structure DailyRow where
  date : Nat
  daily_cost_import : Rat
  daily_cost_export : Rat
  daily_cost_net : Rat
  daily_kwh_import : Rat
  daily_kwh_export : Rat
  record_count : Nat
deriving DecidableEq, Repr

/-- The JSON body the cost-statistics GET handler returns
(`src/frontend/src/app/page.tsx` lines 119-128 and 138-147). -/
structure CostStats where
  total_cost : Rat
  avg_daily_cost : Rat
  total_import_cost : Rat
  total_export_cost : Rat
  total_kwh_import : Rat
  total_kwh_export : Rat
  days_with_data : Nat
  daily_data : List DailyRow
deriving DecidableEq, Repr

/-- The cost-statistics GET handler (`src/frontend/src/app/page.tsx` lines
98-152), applied to the rows its daily-aggregate query returned: zero rows short
circuits to an all-zero success response before any division; otherwise the
totals are folds over the rows and `avg_daily_cost = totalCost / rows.length`. -/
def costStatsGET (rows : List DailyRow) : CostStats :=
  if rows.length = 0 then ⟨0, 0, 0, 0, 0, 0, 0, []⟩
  else
    let totalCost := rows.foldl (fun s d => s + d.daily_cost_net) 0
    let totalImportCost := rows.foldl (fun s d => s + d.daily_cost_import) 0
    let totalExportCost := rows.foldl (fun s d => s + d.daily_cost_export) 0
    let totalKwhImport := rows.foldl (fun s d => s + d.daily_kwh_import) 0
    let totalKwhExport := rows.foldl (fun s d => s + d.daily_kwh_export) 0
    ⟨totalCost, totalCost / (rows.length : Rat), totalImportCost, totalExportCost,
      totalKwhImport, totalKwhExport, rows.length, rows⟩

end AmberHome

namespace AmberHome

theorem chunkFromAux_ne_nil (span e fuel cur : Nat) : chunkFromAux span e fuel cur ≠ [] := by
  cases fuel with
  | zero => simp [chunkFromAux]
  | succ n =>
    simp only [chunkFromAux]
    split <;> simp

theorem chunkFromAux_head (span e fuel cur : Nat) :
    ∃ b l, chunkFromAux span e fuel cur = (cur, b) :: l := by
  cases fuel with
  | zero => exact ⟨e, [], rfl⟩
  | succ n =>
    simp only [chunkFromAux]
    split
    · exact ⟨cur + span, _, rfl⟩
    · exact ⟨e, [], rfl⟩

theorem chunkFromAux_bounds (span e : Nat) :
    ∀ fuel cur, cur ≤ e → ∀ p ∈ chunkFromAux span e fuel cur,
      cur ≤ p.1 ∧ p.1 ≤ p.2 ∧ p.2 ≤ e := by
  intro fuel
  induction fuel with
  | zero =>
    intro cur hce p hp
    simp [chunkFromAux] at hp
    subst hp
    exact ⟨le_refl _, hce, le_refl _⟩
  | succ n ih =>
    intro cur hce p hp
    simp only [chunkFromAux] at hp
    by_cases h : cur + span < e
    · rw [if_pos h] at hp
      rcases List.mem_cons.mp hp with h1 | h2
      · subst h1
        exact ⟨le_refl _, Nat.le_add_right _ _, le_of_lt h⟩
      · have := ih (cur + span) (le_of_lt h) p h2
        exact ⟨le_trans (Nat.le_add_right _ _) this.1, this.2.1, this.2.2⟩
    · rw [if_neg h] at hp
      simp at hp
      subst hp
      exact ⟨le_refl _, hce, le_refl _⟩

theorem chunkFromAux_len (span e : Nat) (hspan : 0 < span) :
    ∀ fuel cur, e ≤ cur + fuel → ∀ p ∈ chunkFromAux span e fuel cur,
      p.2 - p.1 ≤ span := by
  intro fuel
  induction fuel with
  | zero =>
    intro cur hf p hp
    simp [chunkFromAux] at hp
    subst hp
    omega
  | succ n ih =>
    intro cur hf p hp
    simp only [chunkFromAux] at hp
    by_cases h : cur + span < e
    · rw [if_pos h] at hp
      rcases List.mem_cons.mp hp with h1 | h2
      · subst h1; omega
      · exact ih (cur + span) (by omega) p h2
    · rw [if_neg h] at hp
      simp at hp
      subst hp
      omega

theorem chunkFromAux_chain (span e : Nat) :
    ∀ fuel cur, List.Chain' (fun p q : Nat × Nat => p.2 = q.1) (chunkFromAux span e fuel cur) := by
  intro fuel
  induction fuel with
  | zero => intro cur; simp [chunkFromAux]
  | succ n ih =>
    intro cur
    simp only [chunkFromAux]
    split
    · obtain ⟨b, l, hb⟩ := chunkFromAux_head span e n (cur + span)
      rw [hb]
      have := ih (cur + span)
      rw [hb] at this
      exact List.Chain'.cons rfl this
    · simp

theorem chunkFromAux_last (span e : Nat) :
    ∀ fuel cur, ∃ a, (chunkFromAux span e fuel cur).getLast? = some (a, e) := by
  intro fuel
  induction fuel with
  | zero => intro cur; exact ⟨cur, rfl⟩
  | succ n ih =>
    intro cur
    simp only [chunkFromAux]
    split
    · obtain ⟨a, ha⟩ := ih (cur + span)
      obtain ⟨b, l, hb⟩ := chunkFromAux_head span e n (cur + span)
      refine ⟨a, ?_⟩
      rw [hb, List.getLast?_cons_cons, ← hb, ha]
    · exact ⟨cur, rfl⟩

theorem chunkFromAux_cover (span e : Nat) :
    ∀ fuel cur t, cur ≤ t → t ≤ e → ∃ p ∈ chunkFromAux span e fuel cur,
      p.1 ≤ t ∧ t ≤ p.2 := by
  intro fuel
  induction fuel with
  | zero =>
    intro cur t hct hte
    exact ⟨(cur, e), by simp [chunkFromAux], hct, hte⟩
  | succ n ih =>
    intro cur t hct hte
    simp only [chunkFromAux]
    by_cases h : cur + span < e
    · rw [if_pos h]
      by_cases ht : t ≤ cur + span
      · exact ⟨(cur, cur + span), List.mem_cons_self _ _, hct, ht⟩
      · obtain ⟨p, hp, h1, h2⟩ := ih (cur + span) t (by omega) hte
        exact ⟨p, List.mem_cons_of_mem _ hp, h1, h2⟩
    · rw [if_neg h]
      exact ⟨(cur, e), by simp, hct, hte⟩

theorem chain_endpoints_pairwise :
    ∀ l : List (Nat × Nat), List.Chain' (fun p q : Nat × Nat => p.2 = q.1) l →
      (∀ p ∈ l, p.1 ≤ p.2) →
      l.Pairwise (fun p q : Nat × Nat => p.2 ≤ q.1) ∧
      (∀ q ∈ l, ∀ b ∈ l.head?, b.1 ≤ q.1) := by
  intro l
  induction l with
  | nil => intro _ _; simp
  | cons a l ih =>
    intro hch hb
    have hchl : List.Chain' (fun p q : Nat × Nat => p.2 = q.1) l := hch.tail
    have hbl : ∀ p ∈ l, p.1 ≤ p.2 := fun p hp => hb p (List.mem_cons_of_mem _ hp)
    obtain ⟨ihp, ihh⟩ := ih hchl hbl
    have ha : a.1 ≤ a.2 := hb a (List.mem_cons_self _ _)
    have hconn : ∀ q ∈ l, a.2 ≤ q.1 := by
      intro q hq
      cases l with
      | nil => simp at hq
      | cons c l2 =>
        have hac : a.2 = c.1 := (List.chain'_cons.mp hch).1
        have := ihh q hq c rfl
        omega
    constructor
    · exact List.pairwise_cons.mpr ⟨hconn, ihp⟩
    · intro q hq b hbm
      simp at hbm
      subst hbm
      rcases List.mem_cons.mp hq with h1 | h2
      · subst h1; exact le_refl _
      · exact le_trans ha (hconn q h2)

/-- C1: for all start ≤ stop and max span > 0, RangeChunker's output is a
non-empty chunk list that begins at `start`, ends at `stop`, has every chunk
well-formed and no longer than the span, is contiguous (each chunk ends where
the next begins, so concatenation reconstructs the range with no gaps),
non-overlapping and ordered oldest-first, and covers every instant of
`[start, stop]`. -/
theorem rangeChunker_partitions (start stop span : Nat)
    (hs : start ≤ stop) (hspan : 0 < span) :
    (∃ b l, rangeChunker start stop span = (start, b) :: l) ∧
    (∃ a, (rangeChunker start stop span).getLast? = some (a, stop)) ∧
    (∀ p ∈ rangeChunker start stop span, p.1 ≤ p.2 ∧ p.2 - p.1 ≤ span) ∧
    List.Chain' (fun p q : Nat × Nat => p.2 = q.1) (rangeChunker start stop span) ∧
    (rangeChunker start stop span).Pairwise (fun p q : Nat × Nat => p.2 ≤ q.1) ∧
    (∀ t, start ≤ t → t ≤ stop →
      ∃ p ∈ rangeChunker start stop span, p.1 ≤ t ∧ t ≤ p.2) := by
  have hlt : ¬ stop < start := not_lt.mpr hs
  unfold rangeChunker
  rw [if_neg hlt]
  refine ⟨chunkFromAux_head span stop (stop - start) start,
    chunkFromAux_last span stop (stop - start) start, ?_,
    chunkFromAux_chain span stop (stop - start) start, ?_, ?_⟩
  · intro p hp
    exact ⟨(chunkFromAux_bounds span stop (stop - start) start hs p hp).2.1,
      chunkFromAux_len span stop hspan (stop - start) start (by omega) p hp⟩
  · exact (chain_endpoints_pairwise _ (chunkFromAux_chain span stop (stop - start) start)
      (fun p hp => (chunkFromAux_bounds span stop (stop - start) start hs p hp).2.1)).1
  · intro t h1 h2
    exact chunkFromAux_cover span stop (stop - start) start t h1 h2

theorem rangeChunker_partitions_witness :
    ∃ b l, rangeChunker 0 19 7 = (0, b) :: l :=
  (rangeChunker_partitions 0 19 7 (by decide) (by decide)).1

/-- C8: RangeChunker on start = stop yields exactly one zero-length chunk, on
start > stop yields the empty list without error, and the Orchestrator's chunk
loop on an empty chunk sequence fetches nothing, writes nothing, reports no
error and leaves the watermark unchanged. -/
theorem rangeChunker_edge_cases (s t span wm0 : Nat)
    (f : Nat × Nat → Except ErrKind (List String)) :
    rangeChunker s s span = [(s, s)] ∧
    (t < s → rangeChunker s t span = []) ∧
    processChunks f wm0 [] = ⟨[], wm0, none, []⟩ := by
  refine ⟨?_, ?_, rfl⟩
  · unfold rangeChunker
    rw [if_neg (lt_irrefl s), Nat.sub_self]
    rfl
  · intro h
    unfold rangeChunker
    rw [if_pos h]

theorem rangeChunker_edge_cases_witness :
    rangeChunker 5 3 7 = [] :=
  (rangeChunker_edge_cases 5 3 7 0 (fun _ => Except.ok [])).2.1 (by decide)

theorem applyAdvance_mono (st : PairKey → Option Nat) (c : PairKey × Nat)
    (k : PairKey) (w : Nat) (h : st k = some w) :
    ∃ w2, applyAdvance st c k = some w2 ∧ w ≤ w2 := by
  unfold applyAdvance advance
  cases hsc : st c.1 with
  | none =>
    simp only
    by_cases hk : k = c.1
    · rw [hk] at h
      rw [h] at hsc
      exact absurd hsc (by simp)
    · exact ⟨w, by simp [hk, h], le_refl w⟩
  | some w0 =>
    simp only
    by_cases hts : c.2 < w0
    · rw [if_pos hts]
      exact ⟨w, h, le_refl w⟩
    · rw [if_neg hts]
      by_cases hk : k = c.1
      · refine ⟨c.2, by simp [hk], ?_⟩
        rw [hk] at h
        rw [h] at hsc
        have : w = w0 := by injection hsc
        omega
      · exact ⟨w, by simp [hk, h], le_refl w⟩

theorem applyAll_mono (calls : List (PairKey × Nat)) :
    ∀ st : PairKey → Option Nat, ∀ k w, st k = some w →
      ∃ w2, applyAll calls st k = some w2 ∧ w ≤ w2 := by
  induction calls with
  | nil => intro st k w h; exact ⟨w, h, le_refl w⟩
  | cons c rest ih =>
    intro st k w h
    obtain ⟨w1, h1, hw1⟩ := applyAdvance_mono st c k w h
    obtain ⟨w2, h2, hw2⟩ := ih (applyAdvance st c) k w1 h1
    exact ⟨w2, h2, le_trans hw1 hw2⟩

/-- C2: over any sequence of advance calls the stored watermark of every
(site, category) is non-decreasing, and a call with a timestamp strictly
earlier than the stored value fails with the regression error and leaves the
store unchanged. -/
theorem watermark_monotone_and_regression :
    (∀ calls : List (PairKey × Nat), ∀ st : PairKey → Option Nat, ∀ k w,
      st k = some w → ∃ w2, applyAll calls st k = some w2 ∧ w ≤ w2) ∧
    (∀ st : PairKey → Option Nat, ∀ k ts w, st k = some w → ts < w →
      advance st k ts = Except.error WmError.regressionError ∧
        applyAdvance st (k, ts) = st) := by
  refine ⟨applyAll_mono, ?_⟩
  intro st k ts w h hts
  have hadv : advance st k ts = Except.error WmError.regressionError := by
    unfold advance
    rw [h]
    exact if_pos hts
  refine ⟨hadv, ?_⟩
  unfold applyAdvance
  rw [hadv]

theorem watermark_monotone_and_regression_witness :
    advance (fun _ => some 5) ("A", Category.price) 3 =
      Except.error WmError.regressionError :=
  (watermark_monotone_and_regression.2 (fun _ => some 5) ("A", Category.price) 3 5
    rfl (by decide)).1

/-- C6: when the watermark already equals the current time within the configured
tolerance, the cycle for that (site, category) pair fetches nothing from
upstream, writes nothing, reports no error and leaves the watermark unchanged. -/
theorem pair_noop_when_current (f : PairKey → Nat × Nat → Except ErrKind (List String))
    (ms tol now : Nat) (k : PairKey) (wm : Nat) (h : now ≤ wm + tol) :
    processPair f ms tol now k wm = ⟨[], wm, none, []⟩ := by
  unfold processPair
  rw [if_pos h]

theorem pair_noop_when_current_witness :
    processPair (fun _ _ => Except.ok ["r"]) 7 0 10 ("A", Category.price) 10 =
      ⟨[], 10, none, []⟩ :=
  pair_noop_when_current (fun _ _ => Except.ok ["r"]) 7 0 10 ("A", Category.price) 10
    (by decide)

theorem oldestCall_mem (l : List Nat) (m : Nat) (h : oldestCall l = some m) : m ∈ l := by
  induction l generalizing m with
  | nil => simp [oldestCall] at h
  | cons t ts ih =>
    simp only [oldestCall] at h
    cases hts : oldestCall ts with
    | none =>
      rw [hts] at h
      injection h with h
      subst h
      exact List.mem_cons_self _ _
    | some m0 =>
      rw [hts] at h
      injection h with h
      subst h
      split
      · exact List.mem_cons_self _ _
      · exact List.mem_cons_of_mem _ (ih m0 hts)

theorem oldestCall_le (l : List Nat) (m : Nat) (h : oldestCall l = some m) :
    ∀ t ∈ l, m ≤ t := by
  induction l generalizing m with
  | nil => simp
  | cons t ts ih =>
    intro a ha
    simp only [oldestCall] at h
    cases hts : oldestCall ts with
    | none =>
      rw [hts] at h
      injection h with h
      subst h
      cases ts with
      | nil =>
        rcases List.mem_cons.mp ha with h1 | h2
        · omega
        · simp at h2
      | cons b bs =>
        exfalso
        simp only [oldestCall] at hts
        cases hbs : oldestCall bs <;> rw [hbs] at hts <;> exact Option.noConfusion hts
    | some m0 =>
      rw [hts] at h
      injection h with h
      subst h
      rcases List.mem_cons.mp ha with h1 | h2
      · subst h1
        split <;> omega
      · have := ih m0 hts a h2
        split <;> omega

theorem oldestCall_isSome (l : List Nat) (h : l ≠ []) : ∃ m, oldestCall l = some m := by
  cases l with
  | nil => exact absurd rfl h
  | cons t ts =>
    simp only [oldestCall]
    cases oldestCall ts with
    | none => exact ⟨t, rfl⟩
    | some m0 => exact ⟨Nat.min t m0, rfl⟩

/-- C7: acquire always produces a grant at a finite time no earlier than the
call — it never drops or rejects. With fewer calls in the rolling window than
the threshold the grant is immediate at `now`; otherwise the caller is
suspended exactly until the oldest call in the window expires, at
`oldest + window`, which lies strictly in the future. -/
theorem acquire_always_grants (threshold window now : Nat) (calls : List Nat)
    (hth : 0 < threshold) :
    now ≤ (acquire threshold window now calls).1 ∧
    ((recentCalls window now calls).length < threshold →
      (acquire threshold window now calls).1 = now) ∧
    (threshold ≤ (recentCalls window now calls).length →
      ∃ old, oldestCall (recentCalls window now calls) = some old ∧
        old ∈ recentCalls window now calls ∧
        (∀ t ∈ recentCalls window now calls, old ≤ t) ∧
        (acquire threshold window now calls).1 = old + window ∧
        now < old + window) := by
  by_cases h : (recentCalls window now calls).length < threshold
  · refine ⟨?_, fun _ => ?_, fun hge => absurd hge (by omega)⟩
    · unfold acquire
      simp only [if_pos h]
      exact le_refl now
    · unfold acquire
      simp only [if_pos h]
  · have hne : recentCalls window now calls ≠ [] := by
      intro hnil
      rw [hnil] at h
      simp at h
      omega
    obtain ⟨old, hold⟩ := oldestCall_isSome _ hne
    have hmem : old ∈ recentCalls window now calls := oldestCall_mem _ _ hold
    have hwin : now < old + window := by
      unfold recentCalls at hmem
      have := List.of_mem_filter hmem
      simpa using this
    have hgrant : (acquire threshold window now calls).1 = old + window := by
      unfold acquire
      simp only [if_neg h, hold]
    refine ⟨by omega, fun hlt => absurd hlt h, fun _ => ⟨old, hold, hmem,
      oldestCall_le _ _ hold, hgrant, hwin⟩⟩

theorem upsertPrice_mem (tbl : List PriceRecord) (r : PriceRecord) :
    ∀ x ∈ upsertPrice tbl r, x = r ∨ x ∈ tbl := by
  induction tbl with
  | nil =>
    intro x hx
    simp [upsertPrice] at hx
    exact Or.inl hx
  | cons a rest ih =>
    intro x hx
    simp only [upsertPrice] at hx
    by_cases heq : priceKey a = priceKey r
    · rw [if_pos heq] at hx
      rcases List.mem_cons.mp hx with h1 | h2
      · exact Or.inl h1
      · exact Or.inr (List.mem_cons_of_mem _ h2)
    · rw [if_neg heq] at hx
      rcases List.mem_cons.mp hx with h1 | h2
      · exact Or.inr (h1 ▸ List.mem_cons_self _ _)
      · rcases ih x h2 with h3 | h4
        · exact Or.inl h3
        · exact Or.inr (List.mem_cons_of_mem _ h4)

theorem upsertPrice_unique (tbl : List PriceRecord) (r : PriceRecord)
    (h : uniquePriceKeys tbl) : uniquePriceKeys (upsertPrice tbl r) := by
  induction tbl with
  | nil => simp [upsertPrice, uniquePriceKeys]
  | cons a rest ih =>
    have hpc := List.pairwise_cons.mp h
    simp only [upsertPrice]
    by_cases heq : priceKey a = priceKey r
    · rw [if_pos heq]
      exact List.pairwise_cons.mpr
        ⟨fun b hb => fun hrb => (hpc.1 b hb) (heq.trans hrb), hpc.2⟩
    · rw [if_neg heq]
      refine List.pairwise_cons.mpr ⟨?_, ih hpc.2⟩
      intro b hb
      rcases upsertPrice_mem rest r b hb with h1 | h2
      · rw [h1]; exact heq
      · exact hpc.1 b h2

theorem upsertPrice_count (tbl : List PriceRecord) (r : PriceRecord)
    (h : uniquePriceKeys tbl) :
    priceKeyCount (upsertPrice tbl r) (priceKey r) = 1 := by
  induction tbl with
  | nil => simp [upsertPrice, priceKeyCount]
  | cons a rest ih =>
    have hpc := List.pairwise_cons.mp h
    simp only [upsertPrice]
    by_cases heq : priceKey a = priceKey r
    · rw [if_pos heq]
      have hzero : priceKeyCount rest (priceKey r) = 0 := by
        unfold priceKeyCount
        rw [List.countP_eq_zero]
        intro b hb
        simp only [decide_eq_true_eq]
        intro hbe
        exact (hpc.1 b hb) (heq.trans hbe.symm)
      unfold priceKeyCount at hzero ⊢
      rw [List.countP_cons]
      simp [hzero]
    · rw [if_neg heq]
      have := ih hpc.2
      unfold priceKeyCount at this ⊢
      rw [List.countP_cons]
      simp [heq, this]

theorem upsertPrice_latest (tbl : List PriceRecord) (r : PriceRecord)
    (h : uniquePriceKeys tbl) :
    ∀ x ∈ upsertPrice tbl r, priceKey x = priceKey r → x = r := by
  induction tbl with
  | nil =>
    intro x hx _
    simp [upsertPrice] at hx
    exact hx
  | cons a rest ih =>
    have hpc := List.pairwise_cons.mp h
    intro x hx hxe
    simp only [upsertPrice] at hx
    by_cases heq : priceKey a = priceKey r
    · rw [if_pos heq] at hx
      rcases List.mem_cons.mp hx with h1 | h2
      · exact h1
      · exact absurd (heq.trans hxe.symm) (hpc.1 x h2)
    · rw [if_neg heq] at hx
      rcases List.mem_cons.mp hx with h1 | h2
      · exact absurd (h1 ▸ hxe) heq
      · exact ih hpc.2 x h2 hxe

theorem upsertPrice_keeps (tbl : List PriceRecord) (r : PriceRecord) :
    ∀ x ∈ tbl, priceKey x ≠ priceKey r → x ∈ upsertPrice tbl r := by
  induction tbl with
  | nil => simp
  | cons a rest ih =>
    intro x hx hxe
    simp only [upsertPrice]
    by_cases heq : priceKey a = priceKey r
    · rw [if_pos heq]
      rcases List.mem_cons.mp hx with h1 | h2
      · exact absurd (h1 ▸ heq) hxe
      · exact List.mem_cons_of_mem _ h2
    · rw [if_neg heq]
      rcases List.mem_cons.mp hx with h1 | h2
      · exact h1 ▸ List.mem_cons_self _ _
      · exact List.mem_cons_of_mem _ (ih x h2 hxe)

/-- C3: on a table whose rows have pairwise-distinct natural keys (the UNIQUE
constraint of price_data), upserting a record whose key matches a stored row
leaves the keys distinct, results in exactly one row for that key, that row
carries the latest values, and every row with a different key is retained — no
duplicate rows are ever created. -/
theorem upsertPrice_idempotent_key (tbl : List PriceRecord) (r : PriceRecord)
    (h : uniquePriceKeys tbl) :
    uniquePriceKeys (upsertPrice tbl r) ∧
    priceKeyCount (upsertPrice tbl r) (priceKey r) = 1 ∧
    (∀ x ∈ upsertPrice tbl r, priceKey x = priceKey r → x = r) ∧
    (∀ x ∈ tbl, priceKey x ≠ priceKey r → x ∈ upsertPrice tbl r) :=
  ⟨upsertPrice_unique tbl r h, upsertPrice_count tbl r h,
    upsertPrice_latest tbl r h, upsertPrice_keeps tbl r⟩

theorem upsertPrice_idempotent_key_witness :
    priceKeyCount
      (upsertPrice [⟨"A", 30, "general", 25, 20, none, none, none, false⟩]
        ⟨"A", 30, "general", 99, 77, some 40, some "spike", some "high", true⟩)
      (priceKey ⟨"A", 30, "general", 99, 77, some 40, some "spike", some "high", true⟩) = 1 :=
  (upsertPrice_idempotent_key
    [⟨"A", 30, "general", 25, 20, none, none, none, false⟩]
    ⟨"A", 30, "general", 99, 77, some 40, some "spike", some "high", true⟩
    (by simp [uniquePriceKeys])).2.1

theorem maxNat_mem (l : List Nat) (m : Nat) (h : maxNat l = some m) : m ∈ l := by
  induction l generalizing m with
  | nil => simp [maxNat] at h
  | cons t ts ih =>
    simp only [maxNat] at h
    cases hts : maxNat ts with
    | none =>
      rw [hts] at h
      injection h with h
      subst h
      exact List.mem_cons_self _ _
    | some m0 =>
      rw [hts] at h
      injection h with h
      subst h
      split
      · exact List.mem_cons_of_mem _ (ih m0 hts)
      · exact List.mem_cons_self _ _

theorem maxNat_ge (l : List Nat) (m : Nat) (h : maxNat l = some m) :
    ∀ t ∈ l, t ≤ m := by
  induction l generalizing m with
  | nil => simp
  | cons t ts ih =>
    intro a ha
    simp only [maxNat] at h
    cases hts : maxNat ts with
    | none =>
      rw [hts] at h
      injection h with h
      subst h
      cases ts with
      | nil =>
        rcases List.mem_cons.mp ha with h1 | h2
        · omega
        · simp at h2
      | cons b bs =>
        exfalso
        simp only [maxNat] at hts
        cases hbs : maxNat bs <;> rw [hbs] at hts <;> exact Option.noConfusion hts
    | some m0 =>
      rw [hts] at h
      injection h with h
      subst h
      rcases List.mem_cons.mp ha with h1 | h2
      · subst h1
        split <;> omega
      · have := ih m0 hts a h2
        split <;> omega

theorem forecastQuery_gen (now : Nat) (tbl : List ForecastRecord) (x : ForecastRecord)
    (hx : x ∈ forecastQuery now tbl) :
    ∃ g, latestRecentGeneration now tbl = some g ∧
      x.forecast_generated_at = g ∧ x ∈ tbl := by
  unfold forecastQuery at hx
  cases hg : latestRecentGeneration now tbl with
  | none => rw [hg] at hx; simp at hx
  | some g =>
    rw [hg] at hx
    have := List.mem_filter.mp hx
    refine ⟨g, rfl, ?_, this.1⟩
    have hb := this.2
    simp only [Bool.and_eq_true, decide_eq_true_eq] at hb
    exact hb.2

theorem latestRecentGeneration_max (now : Nat) (tbl : List ForecastRecord) (g : Nat)
    (hg : latestRecentGeneration now tbl = some g) :
    now ≤ g + twoHours ∧ ∀ z ∈ tbl, z.forecast_generated_at ≤ g := by
  unfold latestRecentGeneration at hg
  have hmem := maxNat_mem _ _ hg
  have hge := maxNat_ge _ _ hg
  constructor
  · obtain ⟨w, hw, hwg⟩ := List.mem_map.mp hmem
    have := List.mem_filter.mp hw
    simp only [decide_eq_true_eq] at this
    rw [← hwg]
    exact this.2
  · intro z hz
    by_cases hr : now ≤ z.forecast_generated_at + twoHours
    · refine hge _ (List.mem_map.mpr ⟨z, List.mem_filter.mpr ⟨hz, ?_⟩, rfl⟩)
      simp only [decide_eq_true_eq]
      exact hr
    · obtain ⟨w, hw, hwg⟩ := List.mem_map.mp hmem
      have hwr := List.mem_filter.mp hw
      simp only [decide_eq_true_eq] at hwr
      omega

theorem upsertForecast_append (tbl : List ForecastRecord) (r : ForecastRecord)
    (hnew : ∀ x ∈ tbl, forecastKey x ≠ forecastKey r) :
    upsertForecast tbl r = tbl ++ [r] := by
  induction tbl with
  | nil => rfl
  | cons a rest ih =>
    simp only [upsertForecast]
    rw [if_neg (hnew a (List.mem_cons_self _ _))]
    rw [ih (fun x hx => hnew x (List.mem_cons_of_mem _ hx))]
    rfl

/-- C5: forecasts are versioned by generation time. On a table satisfying the
UNIQUE(site_id, nem_time, channel_type, forecast_generated_at) constraint of
price_forecasts, upserting a row whose four-column key is new — in particular a
row for an already-covered interval but a different generation time — appends it
while retaining every existing row and preserving the constraint; and the
live-display forecast query returns only rows of a single generation, the most
recent one in the whole table. -/
theorem forecast_versioning (tbl : List ForecastRecord) (r : ForecastRecord) (now : Nat)
    (hu : uniqueForecastKeys tbl)
    (hnew : ∀ x ∈ tbl, forecastKey x ≠ forecastKey r) :
    (upsertForecast tbl r = tbl ++ [r] ∧ uniqueForecastKeys (tbl ++ [r])) ∧
    (∀ x ∈ forecastQuery now tbl, ∀ y ∈ forecastQuery now tbl,
      x.forecast_generated_at = y.forecast_generated_at) ∧
    (∀ x ∈ forecastQuery now tbl, ∀ z ∈ tbl,
      z.forecast_generated_at ≤ x.forecast_generated_at) := by
  refine ⟨⟨upsertForecast_append tbl r hnew, ?_⟩, ?_, ?_⟩
  · refine List.pairwise_append.mpr ⟨hu, by simp [uniqueForecastKeys], ?_⟩
    intro a ha b hb
    simp at hb
    rw [hb]
    exact hnew a ha
  · intro x hx y hy
    obtain ⟨g, hg, hgx, _⟩ := forecastQuery_gen now tbl x hx
    obtain ⟨g2, hg2, hgy, _⟩ := forecastQuery_gen now tbl y hy
    rw [hg] at hg2
    injection hg2 with hg2
    rw [hgx, hgy, hg2]
  · intro x hx z hz
    obtain ⟨g, hg, hgx, _⟩ := forecastQuery_gen now tbl x hx
    rw [hgx]
    exact (latestRecentGeneration_max now tbl g hg).2 z hz

theorem forecast_versioning_witness :
    upsertForecast [⟨"A", 100, "general", 10, 9, "ForecastInterval", 50⟩]
      ⟨"A", 100, "general", 12, 11, "ForecastInterval", 60⟩ =
      [⟨"A", 100, "general", 10, 9, "ForecastInterval", 50⟩,
        ⟨"A", 100, "general", 12, 11, "ForecastInterval", 60⟩] :=
  (forecast_versioning [⟨"A", 100, "general", 10, 9, "ForecastInterval", 50⟩]
    ⟨"A", 100, "general", 12, 11, "ForecastInterval", 60⟩ 90
    (by simp [uniqueForecastKeys]) (by decide)).1.1

theorem acquire_always_grants_witness :
    ∃ old, oldestCall (recentCalls 10 5 [2]) = some old ∧
      old ∈ recentCalls 10 5 [2] ∧
      (∀ t ∈ recentCalls 10 5 [2], old ≤ t) ∧
      (acquire 1 10 5 [2]).1 = old + 10 ∧
      5 < old + 10 :=
  (acquire_always_grants 1 10 5 [2] (by decide)).2.2 (by decide)

/-- C9: the dashboard GET handlers are read-only: both return the persisted
tables unchanged, issuing only their SELECT queries. -/
theorem dashboard_read_only (dayStart now : Nat) (db : Database) :
    (usageDataGET dayStart now db).1 = db ∧
    (combinedPriceDataGET dayStart now db).1 = db :=
  ⟨rfl, rfl⟩

/-- C10: the cost-statistics GET handler returns the all-zero success response
when the daily query yields no rows, and for a non-empty row list the
`totalCost / dailyData.length` division has a positive denominator, so
`avg_daily_cost * length = total_cost` holds and no division by zero occurs. -/
theorem costStats_zero_rows_safe :
    costStatsGET [] = ⟨0, 0, 0, 0, 0, 0, 0, []⟩ ∧
    ∀ rows : List DailyRow, rows ≠ [] →
      0 < rows.length ∧
      (costStatsGET rows).days_with_data = rows.length ∧
      (costStatsGET rows).avg_daily_cost * (rows.length : Rat) =
        (costStatsGET rows).total_cost := by
  refine ⟨rfl, ?_⟩
  intro rows hne
  have hlen : rows.length ≠ 0 := fun h0 => hne (List.length_eq_zero.mp h0)
  refine ⟨Nat.pos_of_ne_zero hlen, ?_, ?_⟩
  · simp only [costStatsGET, if_neg hlen]
  · simp only [costStatsGET, if_neg hlen]
    exact div_mul_cancel₀ _ (Nat.cast_ne_zero.mpr hlen)

theorem costStats_zero_rows_safe_witness :
    0 < [(⟨0, 1, 0, 1, 2, 0, 1⟩ : DailyRow)].length ∧
    (costStatsGET [(⟨0, 1, 0, 1, 2, 0, 1⟩ : DailyRow)]).days_with_data =
      [(⟨0, 1, 0, 1, 2, 0, 1⟩ : DailyRow)].length ∧
    (costStatsGET [(⟨0, 1, 0, 1, 2, 0, 1⟩ : DailyRow)]).avg_daily_cost *
        (([(⟨0, 1, 0, 1, 2, 0, 1⟩ : DailyRow)].length : Nat) : Rat) =
      (costStatsGET [(⟨0, 1, 0, 1, 2, 0, 1⟩ : DailyRow)]).total_cost :=
  costStats_zero_rows_safe.2 [⟨0, 1, 0, 1, 2, 0, 1⟩] (by simp)

theorem map_congr_mem {α β : Type} (l : List α) (f g : α → β)
    (h : ∀ a ∈ l, f a = g a) : l.map f = l.map g := by
  induction l with
  | nil => rfl
  | cons a l ih =>
    simp only [List.map_cons]
    rw [h a (List.mem_cons_self _ _), ih (fun b hb => h b (List.mem_cons_of_mem _ hb))]

theorem filterMap_congr_mem {α β : Type} (l : List α) (f g : α → Option β)
    (h : ∀ a ∈ l, f a = g a) : l.filterMap f = l.filterMap g := by
  induction l with
  | nil => rfl
  | cons a l ih =>
    rw [List.filterMap_cons, List.filterMap_cons,
      h a (List.mem_cons_self _ _), ih (fun b hb => h b (List.mem_cons_of_mem _ hb))]

theorem map_join_infix {α β : Type} (g : α → List β) (l : List α) (x : α)
    (hx : x ∈ l) : ∃ s t, s ++ g x ++ t = (l.map g).flatten := by
  induction l with
  | nil => simp at hx
  | cons a l ih =>
    rcases List.mem_cons.mp hx with h1 | h2
    · subst h1
      exact ⟨[], (l.map g).flatten, by simp⟩
    · obtain ⟨s, t, hst⟩ := ih h2
      exact ⟨g a ++ s, t, by simp [List.append_assoc, hst]⟩

theorem runCycle_wm_not_mem (f : PairKey → Nat × Nat → Except ErrKind (List String))
    (ms tol now : Nat) (pairs : List PairKey) :
    ∀ wm0 : PairKey → Nat, ∀ q, q ∉ pairs →
      (runCycle f ms tol now wm0 pairs).wm q = wm0 q := by
  induction pairs with
  | nil => intro wm0 q _; rfl
  | cons k rest ih =>
    intro wm0 q hq
    have hqk : q ≠ k := fun h => hq (h ▸ List.mem_cons_self _ _)
    have hqr : q ∉ rest := fun h => hq (List.mem_cons_of_mem _ h)
    simp only [runCycle]
    rw [ih _ q hqr]
    simp [hqk]

theorem runCycle_wm_mem (f : PairKey → Nat × Nat → Except ErrKind (List String))
    (ms tol now : Nat) (pairs : List PairKey) :
    ∀ wm0 : PairKey → Nat, pairs.Nodup → ∀ q ∈ pairs,
      (runCycle f ms tol now wm0 pairs).wm q =
        (processPair f ms tol now q (wm0 q)).wm := by
  induction pairs with
  | nil => intro wm0 _ q hq; simp at hq
  | cons k rest ih =>
    intro wm0 hnd q hq
    have hk : k ∉ rest := (List.nodup_cons.mp hnd).1
    have hr : rest.Nodup := (List.nodup_cons.mp hnd).2
    simp only [runCycle]
    rcases List.mem_cons.mp hq with h1 | h2
    · subst h1
      rw [runCycle_wm_not_mem f ms tol now rest _ q hk]
      simp
    · have hqk : q ≠ k := fun h => hk (h ▸ h2)
      rw [ih _ hr q h2]
      simp [hqk]

theorem runCycle_written_eq (f : PairKey → Nat × Nat → Except ErrKind (List String))
    (ms tol now : Nat) (pairs : List PairKey) :
    ∀ wm0 : PairKey → Nat, pairs.Nodup →
      (runCycle f ms tol now wm0 pairs).written =
        (pairs.map (fun q => (processPair f ms tol now q (wm0 q)).written)).flatten := by
  induction pairs with
  | nil => intro wm0 _; rfl
  | cons k rest ih =>
    intro wm0 hnd
    have hk : k ∉ rest := (List.nodup_cons.mp hnd).1
    simp only [runCycle, List.map_cons, List.flatten_cons]
    rw [ih _ (List.nodup_cons.mp hnd).2]
    congr 1
    apply congrArg
    apply map_congr_mem
    intro q hq
    have hqk : q ≠ k := fun h => hk (h ▸ hq)
    simp [hqk]

theorem runCycle_failures_eq (f : PairKey → Nat × Nat → Except ErrKind (List String))
    (ms tol now : Nat) (pairs : List PairKey) :
    ∀ wm0 : PairKey → Nat, pairs.Nodup →
      (runCycle f ms tol now wm0 pairs).failures =
        pairs.filterMap (fun q =>
          ((processPair f ms tol now q (wm0 q)).err).map (fun e => (q, e))) := by
  induction pairs with
  | nil => intro wm0 _; rfl
  | cons k rest ih =>
    intro wm0 hnd
    have hk : k ∉ rest := (List.nodup_cons.mp hnd).1
    simp only [runCycle, List.filterMap_cons]
    rw [ih _ (List.nodup_cons.mp hnd).2]
    have hrest : rest.filterMap (fun q =>
        ((processPair f ms tol now q (if q = k then (processPair f ms tol now k (wm0 k)).wm
          else wm0 q)).err).map (fun e => (q, e))) =
        rest.filterMap (fun q =>
          ((processPair f ms tol now q (wm0 q)).err).map (fun e => (q, e))) := by
      apply filterMap_congr_mem
      intro q hq
      have hqk : q ≠ k := fun h => hk (h ▸ hq)
      simp [hqk]
    rw [hrest]
    cases herr : (processPair f ms tol now k (wm0 k)).err with
    | none => simp [herr]
    | some e => simp [herr]

theorem processChunks_cons_ok (f : Nat × Nat → Except ErrKind (List String))
    (wm0 : Nat) (a : Nat × Nat) (L : List (Nat × Nat)) (rs : List String)
    (ha : f a = Except.ok rs) :
    processChunks f wm0 (a :: L) =
      ⟨rs ++ (processChunks f a.2 L).written, (processChunks f a.2 L).wm,
        (processChunks f a.2 L).err, a :: (processChunks f a.2 L).fetched⟩ := by
  simp only [processChunks, ha]

theorem processChunks_fail (f : Nat × Nat → Except ErrKind (List String))
    (pre : List (Nat × Nat)) :
    ∀ wm0 c post e, (∀ c2 ∈ pre, ∃ rs, f c2 = Except.ok rs) →
      f c = Except.error e →
      (processChunks f wm0 (pre ++ c :: post)).err = some e ∧
      (processChunks f wm0 (pre ++ c :: post)).fetched = pre ++ [c] ∧
      (processChunks f wm0 (pre ++ c :: post)).wm =
        (pre.getLast?.map Prod.snd).getD wm0 := by
  induction pre with
  | nil =>
    intro wm0 c post e _ hc
    simp [processChunks, hc]
  | cons a pre2 ih =>
    intro wm0 c post e hpre hc
    obtain ⟨rs, ha⟩ := hpre a (List.mem_cons_self _ _)
    obtain ⟨h1, h2, h3⟩ := ih a.2 c post e
      (fun c2 h => hpre c2 (List.mem_cons_of_mem _ h)) hc
    rw [List.cons_append, processChunks_cons_ok f wm0 a _ rs ha]
    refine ⟨h1, ?_, ?_⟩
    · show a :: (processChunks f a.2 (pre2 ++ c :: post)).fetched = (a :: pre2) ++ [c]
      rw [h2]
      rfl
    · show (processChunks f a.2 (pre2 ++ c :: post)).wm =
        ((a :: pre2).getLast?.map Prod.snd).getD wm0
      rw [h3]
      cases pre2 with
      | nil => rfl
      | cons b bs =>
        rw [List.getLast?_cons_cons,
          List.getLast?_eq_getLast (b :: bs) (List.cons_ne_nil _ _)]
        rfl

theorem rangeChunker_fail_point (wm0 now ms : Nat) (hlt : wm0 ≤ now)
    (pre : List (Nat × Nat)) (c : Nat × Nat) (post : List (Nat × Nat))
    (hch : rangeChunker wm0 now ms = pre ++ c :: post) :
    (pre.getLast?.map Prod.snd).getD wm0 = c.1 := by
  unfold rangeChunker at hch
  rw [if_neg (not_lt.mpr hlt)] at hch
  cases pre with
  | nil =>
    simp only [List.nil_append] at hch
    obtain ⟨b, l, hb⟩ := chunkFromAux_head ms now (now - wm0) wm0
    rw [hb] at hch
    have hc1 : c = (wm0, b) := (List.cons.injEq _ _ _ _ ▸ hch).1.symm
    rw [hc1]
    rfl
  | cons a pre2 =>
    have hchain := chunkFromAux_chain ms now (now - wm0) wm0
    rw [hch] at hchain
    obtain ⟨h1, h2, h3⟩ := List.chain'_append.mp hchain
    have hne : a :: pre2 ≠ [] := List.cons_ne_nil _ _
    have hp : (a :: pre2).getLast? = some ((a :: pre2).getLast hne) :=
      List.getLast?_eq_getLast _ hne
    have := h3 ((a :: pre2).getLast hne) (by rw [hp]; rfl) c rfl
    rw [hp]
    simpa using this

/-- C4: within one cycle, when the fetch for some chunk of pair `k` fails after
the chunks before it succeeded, pair `k` fetches exactly the successful prefix
plus the failing chunk and no later chunk, its watermark ends at the failing
chunk's start (never past the failed interval), the failure is recorded in the
cycle result, and every other (site, category) pair is still processed to
completion: its watermark ends exactly as if it were processed alone, and its
written records appear in the cycle's output. -/
theorem cycle_failure_isolation
    (f : PairKey → Nat × Nat → Except ErrKind (List String)) (ms tol now : Nat)
    (pairs : List PairKey) (wm0 : PairKey → Nat) (k : PairKey)
    (hnd : pairs.Nodup) (hk : k ∈ pairs) (hguard : wm0 k + tol < now)
    (pre : List (Nat × Nat)) (c : Nat × Nat) (post : List (Nat × Nat)) (e : ErrKind)
    (hch : rangeChunker (wm0 k) now ms = pre ++ c :: post)
    (hpre : ∀ c2 ∈ pre, ∃ rs, f k c2 = Except.ok rs)
    (hc : f k c = Except.error e) :
    (processPair f ms tol now k (wm0 k)).fetched = pre ++ [c] ∧
    (runCycle f ms tol now wm0 pairs).wm k = c.1 ∧
    (k, e) ∈ (runCycle f ms tol now wm0 pairs).failures ∧
    (∀ q ∈ pairs, q ≠ k →
      (runCycle f ms tol now wm0 pairs).wm q =
        (processPair f ms tol now q (wm0 q)).wm ∧
      ∃ s t, s ++ (processPair f ms tol now q (wm0 q)).written ++ t =
        (runCycle f ms tol now wm0 pairs).written) := by
  have hnle : ¬ now ≤ wm0 k + tol := by omega
  have hpp : processPair f ms tol now k (wm0 k) =
      processChunks (f k) (wm0 k) (pre ++ c :: post) := by
    unfold processPair
    rw [if_neg hnle, hch]
  obtain ⟨herr, hfetch, hwm⟩ := processChunks_fail (f k) pre (wm0 k) c post e hpre hc
  have hwmc : (processChunks (f k) (wm0 k) (pre ++ c :: post)).wm = c.1 := by
    rw [hwm]
    exact rangeChunker_fail_point (wm0 k) now ms (by omega) pre c post hch
  refine ⟨by rw [hpp]; exact hfetch, ?_, ?_, ?_⟩
  · rw [runCycle_wm_mem f ms tol now pairs wm0 hnd k hk, hpp]
    exact hwmc
  · rw [runCycle_failures_eq f ms tol now pairs wm0 hnd]
    refine List.mem_filterMap.mpr ⟨k, hk, ?_⟩
    rw [hpp, herr]
    rfl
  · intro q hq _
    refine ⟨runCycle_wm_mem f ms tol now pairs wm0 hnd q hq, ?_⟩
    rw [runCycle_written_eq f ms tol now pairs wm0 hnd]
    exact map_join_infix (fun p => (processPair f ms tol now p (wm0 p)).written)
      pairs q hq

theorem cycle_failure_isolation_witness :
    (runCycle
        (fun kk _ => if kk.1 = "A" then Except.error ErrKind.transient
          else Except.ok ["B"])
        7 0 10 (fun _ => 0)
        [("A", Category.price), ("B", Category.price)]).wm ("A", Category.price) = 0 ∧
    (("A", Category.price), ErrKind.transient) ∈
      (runCycle
        (fun kk _ => if kk.1 = "A" then Except.error ErrKind.transient
          else Except.ok ["B"])
        7 0 10 (fun _ => 0)
        [("A", Category.price), ("B", Category.price)]).failures := by
  have h := cycle_failure_isolation
    (fun kk _ => if kk.1 = "A" then Except.error ErrKind.transient
      else Except.ok ["B"])
    7 0 10 [("A", Category.price), ("B", Category.price)] (fun _ => 0)
    ("A", Category.price) (by decide) (by decide) (by decide)
    [] (0, 7) [(7, 10)] ErrKind.transient (by decide) (by simp) rfl
  exact ⟨h.2.1, h.2.2.1⟩

end AmberHome
